import Mathlib

/-!
Verification development for the `cashu` wallet (`cashu/wallet/wallet.py`).

The Python source under verification is the wallet engine: amount
decomposition (`LedgerAPI._get_output_split`), output construction
(`LedgerAPI._construct_outputs`), proof construction
(`LedgerAPI._construct_proofs`), the mint/split/melt flows
(`LedgerAPI.mint`, `LedgerAPI.split`, `Wallet.mint`, `Wallet.split`,
`Wallet.pay_lightning`, `Wallet.set_reserved`, `Wallet.invalidate`),
and the token serialization (`Wallet.serialize_proofs`).

Parts of the repository that the wallet calls but whose code is not part
of the two source files (the `b_dhke` curve module, the mint ledger, the
crud persistence layer, and the json/base64 wire encoding) are modelled
from the specification; each such definition carries a doc comment
starting with `Modelled from the spec:`.

Conventions of the embedding:
* The secp256k1 group used by BDHKE is a cyclic group of prime order.
  We model it as the additive group of `ZMod secpOrder` with the fixed
  generator `Gpt = 1`; scalar multiplication of a point by a scalar is
  ring multiplication.  All the algebra used by the protocol
  (associativity, commutativity, distributivity of the scalar action)
  holds in this model exactly as it does on the curve.
* Randomness (fresh secrets, blinding factors) is passed in explicitly
  as oracle arguments (`Nat → String`, lists of scalars).
* Python exceptions are modelled with `Option`: a raised exception is
  `none` paired with the unchanged wallet state.
* HTTP calls to the mint are modelled as explicit function arguments,
  so that a statement quantified over the mint argument expresses
  "whatever the mint answers" (in particular, "the mint is never
  contacted" is expressed by quantifying the result over every mint).
-/

namespace Cashu

/-- Order of the secp256k1 group (the prime `n` of the curve). -/
def secpOrder : Nat :=
  0xFFFFFFFFFFFFFFFFFFFFFFFFFFFFFFFEBAAEDCE6AF48A03BBFD25E8CD0364141

/-- Modelled from the spec: the secp256k1 group is cyclic of prime
order, so we identify points and scalars with `ZMod secpOrder`;
the scalar action `k·P` is ring multiplication. -/
abbrev Point : Type := ZMod secpOrder

instance : NeZero secpOrder := ⟨by decide⟩

/-- Modelled from the spec: the fixed generator `G` of secp256k1.
In the cyclic-group model it is the unit `1`. -/
def Gpt : Point := 1

/-- Modelled from the spec (`b_dhke.step1_alice`, wallet side):
given `Y = HashToCurve(secret)` and a blinding factor `r`
(the randomness is passed in explicitly), return
`B_ = Y + r·G` together with `r`. -/
def step1_alice (Y : Point) (r : Point) : Point × Point :=
  (Y + r * Gpt, r)

/-- Modelled from the spec (`b_dhke.step2_bob`, mint side):
`C_ = k·B_`. -/
def step2_bob (B_ : Point) (k : Point) : Point :=
  k * B_

/-- Modelled from the spec (`b_dhke.step3_alice`, wallet side):
`C = C_ − r·K`. -/
def step3_alice (C_ : Point) (r : Point) (K : Point) : Point :=
  C_ - r * K

/-- Modelled from the spec (`b_dhke.verify`, mint side):
`verify(k, C, secret) = (k·HashToCurve(secret) == C)`; the hash
function is passed in as `h2c`. -/
def verify (h2c : String → Point) (k : Point) (C : Point) (secret : String) : Bool :=
  decide (k * h2c secret = C)

/-!
## Amount decomposition

`LedgerAPI._get_output_split(amount)` computes `bin(amount)[::-1][:-2]`
— the little-endian bit string of `amount` — and collects `2**pos` for
every position holding bit `"1"`.  `bitsOf` produces that little-endian
bit list (via a fuel argument so that the definition is structural and
kernel-reducible; `n` itself is always enough fuel since the argument
at least halves each step), and `splitBits` is the enumerating loop.
-/

/-- Little-endian bits of `n`, computed with explicit fuel
(`bitsAux fuel n` is the bit list of `n` whenever `n ≤ fuel`). -/
def bitsAux : Nat → Nat → List Bool
  | _, 0 => []
  | 0, _ + 1 => []
  | fuel + 1, n + 1 => decide ((n + 1) % 2 = 1) :: bitsAux fuel ((n + 1) / 2)

/-- The little-endian bit list of `n` (empty for `n = 0`,
matching that `bin(0)[::-1][:-2] = "0"` contributes no `"1"` bits). -/
def bitsOf (n : Nat) : List Bool := bitsAux n n

/-- The `for (pos, bit) in enumerate(bits)` loop of
`_get_output_split`: starting at bit position `k`, keep `2^pos` for
each true bit. -/
def splitBits : Nat → List Bool → List Nat
  | _, [] => []
  | k, b :: bs => (if b then [2 ^ k] else []) ++ splitBits (k + 1) bs

/-- Embedding of `LedgerAPI._get_output_split` (also `cashu.core.split.amount_split`):
the ascending list of powers of two in the binary expansion of `n`. -/
def amount_split (n : Nat) : List Nat := splitBits 0 (bitsOf n)

/-- The Python function applied to an arbitrary `int`.  For `n < 0`,
`bin(n)` is `"-0b" ++ bits`, so `bin(n)[::-1][:-2]` is the little-endian
bit string of `|n|` followed by the character `'b'`, which contributes
no `"1"` bits: the code returns the decomposition of `|n|`. -/
def amount_split_int (n : Int) : List Int :=
  (amount_split n.natAbs).map Int.ofNat

/-! ### Basic facts about `amount_split` -/

/-- The numeric value of a little-endian bit list. -/
def bitsVal : List Bool → Nat
  | [] => 0
  | b :: bs => (if b then 1 else 0) + 2 * bitsVal bs

theorem bitsAux_val (fuel : Nat) : ∀ n : Nat, n ≤ fuel → bitsVal (bitsAux fuel n) = n := by
  induction fuel with
  | zero =>
    intro n hn
    interval_cases n
    simp [bitsAux, bitsVal]
  | succ f ih =>
    intro n hn
    match n with
    | 0 => simp [bitsAux, bitsVal]
    | m + 1 =>
      have hdiv : (m + 1) / 2 ≤ f := by omega
      simp only [bitsAux, bitsVal, ih _ hdiv]
      have := Nat.div_add_mod (m + 1) 2
      by_cases h : (m + 1) % 2 = 1 <;> simp [h] <;> omega

theorem bitsVal_bitsOf (n : Nat) : bitsVal (bitsOf n) = n :=
  bitsAux_val n n le_rfl

theorem splitBits_sum (bs : List Bool) : ∀ k : Nat, (splitBits k bs).sum = 2 ^ k * bitsVal bs := by
  induction bs with
  | nil => intro k; simp [splitBits, bitsVal]
  | cons b bs ih =>
    intro k
    simp only [splitBits, bitsVal, List.sum_append, ih (k + 1)]
    cases b <;> simp [pow_succ] <;> ring

theorem amount_split_sum (n : Nat) : (amount_split n).sum = n := by
  simp [amount_split, splitBits_sum, bitsVal_bitsOf]

theorem splitBits_mem_pow (bs : List Bool) :
    ∀ k : Nat, ∀ x ∈ splitBits k bs, ∃ j : Nat, x = 2 ^ j ∧ k ≤ j := by
  induction bs with
  | nil => intro k x hx; simp [splitBits] at hx
  | cons b bs ih =>
    intro k x hx
    simp only [splitBits, List.mem_append] at hx
    rcases hx with hx | hx
    · refine ⟨k, ?_, le_rfl⟩
      cases b <;> simp_all
    · obtain ⟨j, hj, hkj⟩ := ih (k + 1) x hx
      exact ⟨j, hj, by omega⟩

theorem splitBits_sorted (bs : List Bool) :
    ∀ k : Nat, (splitBits k bs).Sorted (· < ·) := by
  induction bs with
  | nil => intro k; simp [splitBits]
  | cons b bs ih =>
    intro k
    simp only [splitBits]
    cases b
    · simpa using ih (k + 1)
    · simp only [if_pos, List.singleton_append, List.sorted_cons]
      refine ⟨fun x hx => ?_, ih (k + 1)⟩
      obtain ⟨j, rfl, hkj⟩ := splitBits_mem_pow bs (k + 1) x hx
      exact Nat.pow_lt_pow_right (by omega) (by omega)

theorem amount_split_sorted (n : Nat) : (amount_split n).Sorted (· < ·) :=
  splitBits_sorted (bitsOf n) 0

theorem amount_split_nodup (n : Nat) : (amount_split n).Nodup :=
  (amount_split_sorted n).nodup

/-!
## Data model

`Proof` mirrors `cashu.core.base.Proof` as the wallet uses it:
`amount`, `secret`, `C`, plus the wallet-local `reserved` and `send_id`
fields.  `C` is kept as a `Point` (the source stores its hex
serialization; the encoding is injective so nothing is lost).
-/

structure Proof where
  amount : Int
  secret : String
  C : Point
  reserved : Bool := false
  send_id : String := ""
deriving DecidableEq, Repr

structure BlindedMessage where
  amount : Int
  B_ : Point
deriving DecidableEq, Repr

structure BlindedSignature where
  amount : Int
  C_ : Point
deriving DecidableEq, Repr

/-- Embedding of `LedgerAPI._construct_proofs`: unblind each promise with the
matching secret and blinding factor (`zip` of the three lists), using
the mint public key `keys[promise.amount]` for the promise's amount. -/
def construct_proofs (keys : Int → Point) (promises : List BlindedSignature)
    (secrets : List String) (rs : List Point) : List Proof :=
  (promises.zip (secrets.zip rs)).map fun x =>
    { amount := x.1.amount, secret := x.2.1,
      C := step3_alice x.1.C_ x.2.2 (keys x.1.amount) }

/-- Embedding of `LedgerAPI._construct_outputs`: for each `(secret, amount)` pair
(the source iterates `zip(secrets, amounts)`), blind the secret with a
fresh blinding factor (here taken from the explicit list `rs`) and
collect the blinded messages together with the blinding factors. -/
def construct_outputs (h2c : String → Point) (amounts : List Int)
    (secrets : List String) (rs : List Point) :
    List BlindedMessage × List Point :=
  (((secrets.zip amounts).zip rs).map fun x =>
      { amount := x.1.2, B_ := (step1_alice (h2c x.1.1) x.2).1 },
   ((secrets.zip amounts).zip rs).map fun x => (step1_alice (h2c x.1.1) x.2).2)

/-- Embedding of `LedgerAPI.generate_deterministic_secrets`:
`[f"{secret}_{i}" for i in range(n)]`. -/
def generate_deterministic_secrets (secret : String) (n : Nat) : List String :=
  (List.range n).map fun i => secret ++ "_" ++ toString i

/-- Modelled from the spec: the crud query `secret_used` consults the
wallet's persistent proof store for a row with the given secret. -/
def secret_used (db : List Proof) (s : String) : Bool :=
  db.any fun p => p.secret = s

/-- Embedding of `LedgerAPI._check_used_secrets`: it raises iff some intended secret is
already present in the local store. -/
def check_used_secrets_fails (db : List Proof) (secrets : List String) : Bool :=
  secrets.any (secret_used db)

/-- Wallet state: the in-memory list `self.proofs` and (modelled from
the spec's persistence contract) the persistent proof store. -/
structure WalletState where
  proofs : List Proof
  db : List Proof
deriving DecidableEq, Repr

/-- The mint's response behaviour for `POST /mint`:
blinded messages in, promises out (`none` = error response). -/
def MintSignFn : Type := List BlindedMessage → Option (List BlindedSignature)

/-- The mint's response behaviour for `POST /split`:
(inputs, amount, output_data) in, `(fst, snd)` promises out. -/
def MintSplitFn : Type :=
  List Proof → Int → List BlindedMessage → Option (List BlindedSignature × List BlindedSignature)

/-!
## Mint-side model (spec §4.4)

The mint ledger is not among the source files, so its `split` endpoint
is modelled from the spec.
-/

/-- Modelled from the spec: mint signing of a batch of blinded outputs
(step 7 of split): `C_ = k_amount · B_`, amounts echoed (invariant I1). -/
def sign_outputs (mintKeys : Int → Point) (msgs : List BlindedMessage) :
    List BlindedSignature :=
  msgs.map fun m => { amount := m.amount, C_ := step2_bob m.B_ (mintKeys m.amount) }

/-- Modelled from the spec (§4.4 `split`): reject spent or duplicated
input secrets, verify every input, check `0 ≤ amount ≤ total`,
partition `output_data` at `len(amount_split(total − amount))` and
check both partition sums, then register the input secrets and sign
both halves. -/
def mint_split (h2c : String → Point) (mintKeys : Int → Point) (spent : List String)
    (inputs : List Proof) (amount : Int) (outputs : List BlindedMessage) :
    Option (List BlindedSignature × List BlindedSignature × List String) :=
  if inputs.any (fun p => spent.contains p.secret) then none
  else if ¬ (inputs.map (·.secret)).Nodup then none
  else if ¬ (inputs.all fun p => verify h2c (mintKeys p.amount) p.C p.secret) then none
  else
    let total := (inputs.map (·.amount)).sum
    if amount < 0 ∨ total < amount then none
    else
      let fstAmt := total - amount
      let cut := (amount_split_int fstAmt).length
      let fstMsgs := outputs.take cut
      let sndMsgs := outputs.drop cut
      if (fstMsgs.map (·.amount)).sum ≠ fstAmt ∨ (sndMsgs.map (·.amount)).sum ≠ amount then
        none
      else
        some (sign_outputs mintKeys fstMsgs, sign_outputs mintKeys sndMsgs,
          spent ++ inputs.map (·.secret))

/-- The spec mint's `/split` endpoint as a wallet-facing oracle. -/
def spec_mint_split (h2c : String → Point) (mintKeys : Int → Point)
    (spent : List String) : MintSplitFn :=
  fun inputs amount outputs =>
    (mint_split h2c mintKeys spent inputs amount outputs).map fun r => (r.1, r.2.1)

/-!
## Wallet-side operations
-/

/-- Embedding of `LedgerAPI.mint(amounts, payment_hash)`: generate one fresh random
secret per amount (`secretF` is the randomness oracle), raise if any is
already in the local store, construct blinded outputs (`rsF` supplies
the blinding factors), post them to the mint, and unblind the returned
promises.  `none` models a raised exception. -/
def ledger_mint (h2c : String → Point) (keys : Int → Point) (mint : MintSignFn)
    (db : List Proof) (amounts : List Int)
    (secretF : Nat → String) (rsF : Nat → Point) : Option (List Proof) :=
  let secrets := (List.range amounts.length).map secretF
  if check_used_secrets_fails db secrets then none
  else
    let out := construct_outputs h2c amounts secrets
      ((List.range amounts.length).map rsF)
    match mint out.1 with
    | none => none
    | some promises => some (construct_proofs keys promises secrets out.2)

/-- Embedding of `Wallet.mint(amount, payment_hash)`: decompose the amount, run the
ledger-level mint, raise on an empty result, then persist and append
the new proofs. -/
def wallet_mint (h2c : String → Point) (keys : Int → Point) (mint : MintSignFn)
    (st : WalletState) (amount : Int)
    (secretF : Nat → String) (rsF : Nat → Point) :
    Option (List Proof) × WalletState :=
  let split := amount_split_int amount
  match ledger_mint h2c keys mint st.db split secretF rsF with
  | none => (none, st)
  | some proofs =>
    if proofs = [] then (none, st)
    else (some proofs, { proofs := st.proofs ++ proofs, db := st.db ++ proofs })

/-- The tail of `LedgerAPI.split(proofs, amount, snd_secret)` after
the output amounts and output secrets have been computed: the
used-secret check, the output construction, the `/split` call, and the
unblinding of both returned promise lists (`fst` gets the first
`len(promises_fst)` secrets and blinding factors, `snd` the rest). -/
def ledger_split_core (h2c : String → Point) (keys : Int → Point) (mint : MintSplitFn)
    (db : List Proof) (proofs : List Proof) (amount : Int)
    (amounts : List Int) (secrets : List String) (rsIn : List Point) :
    Option (List Proof × List Proof) :=
  if check_used_secrets_fails db secrets then none
  else
    let out := construct_outputs h2c amounts secrets rsIn
    match mint proofs amount out.1 with
    | none => none
    | some r =>
      some (construct_proofs keys r.1 (secrets.take r.1.length) (out.2.take r.1.length),
        construct_proofs keys r.2 (secrets.drop r.1.length) (out.2.drop r.1.length))

/-- The output amounts chosen by `LedgerAPI.split`:
`amount_split(total − amount) + amount_split(amount)`. -/
def split_output_amounts (proofs : List Proof) (amount : Int) : List Int :=
  amount_split_int ((proofs.map (·.amount)).sum - amount) ++ amount_split_int amount

/-- The output secrets chosen by `LedgerAPI.split`: one fresh random
secret per output, or — when `snd_secret` is given — fresh random
secrets for the fst outputs followed by the deterministic sequence for
the snd outputs. -/
def split_output_secrets (proofs : List Proof) (amount : Int)
    (snd_secret : Option String) (secretF : Nat → String) : List String :=
  match snd_secret with
  | none => (List.range (split_output_amounts proofs amount).length).map secretF
  | some ss =>
      (List.range
          (amount_split_int ((proofs.map (·.amount)).sum - amount)).length).map secretF
        ++ generate_deterministic_secrets ss (amount_split_int amount).length

/-- Embedding of `LedgerAPI.split(proofs, amount, snd_secret)`: compute the two
output decompositions, choose the output secrets, then run
`ledger_split_core`.  The source's two `assert len(...) == len(...)`
checks always hold by construction and are not modelled as failure
branches. -/
def ledger_split (h2c : String → Point) (keys : Int → Point) (mint : MintSplitFn)
    (db : List Proof) (proofs : List Proof) (amount : Int)
    (snd_secret : Option String) (secretF : Nat → String) (rsF : Nat → Point) :
    Option (List Proof × List Proof) :=
  ledger_split_core h2c keys mint db proofs amount
    (split_output_amounts proofs amount)
    (split_output_secrets proofs amount snd_secret secretF)
    ((List.range (split_output_amounts proofs amount).length).map rsF)

/-- Embedding of `Wallet.split(proofs, amount, snd_secret)`: assert the input list
is non-empty, run the ledger-level split, raise if both returned lists
are empty, drop every in-memory proof whose secret is among the
consumed input secrets, append the new proofs, persist them, and
invalidate the consumed rows in the store. -/
def wallet_split (h2c : String → Point) (keys : Int → Point) (mint : MintSplitFn)
    (st : WalletState) (proofs : List Proof) (amount : Int)
    (snd_secret : Option String) (secretF : Nat → String) (rsF : Nat → Point) :
    Option (List Proof × List Proof) × WalletState :=
  if proofs = [] then (none, st)
  else
    match ledger_split h2c keys mint st.db proofs amount snd_secret secretF rsF with
    | none => (none, st)
    | some r =>
      if r.1 = [] ∧ r.2 = [] then (none, st)
      else
        let usedSecrets := proofs.map (·.secret)
        let mem := (st.proofs.filter fun p => decide (p.secret ∉ usedSecrets))
          ++ r.1 ++ r.2
        let db1 := st.db ++ r.1 ++ r.2
        let db2 := db1.filter fun p => decide (p.secret ∉ usedSecrets)
        (some r, { proofs := mem, db := db2 })

/-- Embedding of `Wallet.invalidate(proofs)`: given the mint's `/check` response
(`spendables`, index-aligned with `proofs`), remove every
no-longer-spendable proof from the store and from memory. -/
def invalidate (st : WalletState) (proofs : List Proof) (spendables : List Bool) :
    WalletState :=
  let invalidated := (proofs.zip spendables).filterMap fun x =>
    if x.2 then none else some x.1
  let invalidateSecrets := invalidated.map (·.secret)
  { proofs := st.proofs.filter fun p => decide (p.secret ∉ invalidateSecrets),
    db := st.db.filter fun p => decide (p.secret ∉ invalidateSecrets) }

/-- Embedding of `Wallet.pay_lightning(proofs, amount, invoice)`: `paid` is the
mint's `/melt` answer; on success run `invalidate` (with `spendables`
the subsequent `/check` answer), otherwise raise without touching any
state. -/
def pay_lightning (st : WalletState) (proofs : List Proof)
    (amount : Int) (invoice : String) (paid : Bool) (spendables : List Bool) :
    Option Bool × WalletState :=
  if paid then (some true, invalidate st proofs spendables)
  else (none, st)

/-- Embedding of `Wallet.set_reserved(proofs, reserved)`: one fresh uuid per batch;
each batch proof object gets `proof.reserved = True` in memory (note:
the literal `True`, not the `reserved` argument), while the store row
is updated with the actual `reserved` flag and the uuid as `send_id`.
Returns the mutated batch and the new state. -/
def set_reserved (st : WalletState) (proofs : List Proof) (res : Bool)
    (uuid : String) : List Proof × WalletState :=
  let batchSecrets := proofs.map (·.secret)
  (proofs.map fun p => { p with reserved := true },
   { proofs := st.proofs.map fun q =>
       if q.secret ∈ batchSecrets then { q with reserved := true } else q,
     db := st.db.map fun q =>
       if q.secret ∈ batchSecrets then { q with reserved := res, send_id := uuid }
       else q })

/-!
## Helper lemmas for BDHKE correctness
-/

theorem unblind_eq (Y k r K : Point) (hK : K = k * Gpt) :
    step3_alice (step2_bob (step1_alice Y r).1 k) r K = k * Y := by
  subst hK
  simp only [step1_alice, step2_bob, step3_alice, Gpt]
  ring

theorem construct_proofs_honest_verify (h2c : String → Point)
    (mintKeys pubKeys : Int → Point) (hpk : ∀ a : Int, pubKeys a = mintKeys a * Gpt) :
    ∀ (secrets : List String) (amounts : List Int) (rs : List Point),
      ∀ p ∈ construct_proofs pubKeys
          (sign_outputs mintKeys (construct_outputs h2c amounts secrets rs).1)
          secrets rs,
        verify h2c (mintKeys p.amount) p.C p.secret = true := by
  intro secrets
  induction secrets with
  | nil => intro amounts rs p hp; simp [construct_outputs, sign_outputs, construct_proofs] at hp
  | cons s ss ih =>
    intro amounts rs p hp
    match amounts, rs with
    | [], _ => simp [construct_outputs, sign_outputs, construct_proofs] at hp
    | _ :: _, [] => simp [construct_outputs, sign_outputs, construct_proofs] at hp
    | a :: as, r :: rr =>
      simp only [construct_outputs, sign_outputs, construct_proofs,
        List.zip_cons_cons, List.map_cons, List.mem_cons] at hp
      rcases hp with hp | hp
      · subst hp
        simp only [verify, decide_eq_true_eq]
        rw [unblind_eq (h2c s) (mintKeys a) r (pubKeys a) (hpk a)]
      · exact ih as rr p (by
          simpa [construct_outputs, sign_outputs, construct_proofs] using hp)

/-! Concrete fixtures used by witness statements. -/

def tH2c : String → Point := fun _ => 1

def tKeys : Int → Point := fun _ => 2

def tPub : Int → Point := fun _ => 2 * Gpt

def tProof : Proof :=
  { amount := 1, secret := "s",
    C := step3_alice (step2_bob (step1_alice (tH2c "s") 3).1 (tKeys 1)) 3 (tPub 1) }

/-- C1: BDHKE correctness.  First conjunct: for every secret `s`,
blinding factor `r` and mint scalar `k`, unblinding the mint's
signature on the blinded point recovers `k · HashToCurve(s)`:
`step3_alice(step2_bob(step1_alice(s).B_, k), r, k·G) = k·HashToCurve(s)`.
Second conjunct: every proof constructed by the wallet's
`_construct_proofs` from honestly signed outputs (mint public keys
`pubKeys a = mintKeys a · G`) passes the mint's `verify`. -/
theorem bdhke_correctness :
    (∀ (h2c : String → Point) (s : String) (k r : Point),
      step3_alice (step2_bob (step1_alice (h2c s) r).1 k) r (k * Gpt) = k * h2c s)
    ∧ ∀ (h2c : String → Point) (mintKeys pubKeys : Int → Point),
        (∀ a : Int, pubKeys a = mintKeys a * Gpt) →
        ∀ (amounts : List Int) (secrets : List String) (rs : List Point),
          ∀ p ∈ construct_proofs pubKeys
              (sign_outputs mintKeys (construct_outputs h2c amounts secrets rs).1)
              secrets rs,
            verify h2c (mintKeys p.amount) p.C p.secret = true := by
  constructor
  · intro h2c s k r
    exact unblind_eq (h2c s) k r (k * Gpt) rfl
  · intro h2c mintKeys pubKeys hpk amounts secrets rs
    exact construct_proofs_honest_verify h2c mintKeys pubKeys hpk secrets amounts rs

/-- Witness for C1 at a concrete instance: secret `"s"`, mint scalar
`2`, blinding factor `3`, one output of amount `1`. -/
theorem bdhke_correctness_witness :
    step3_alice (step2_bob (step1_alice (tH2c "s") 3).1 2) 3 (2 * Gpt) = 2 * tH2c "s"
    ∧ verify tH2c (tKeys tProof.amount) tProof.C tProof.secret = true := by
  constructor
  · exact bdhke_correctness.1 tH2c "s" 2 3
  · exact bdhke_correctness.2 tH2c tKeys tPub (fun _ => rfl) [1] ["s"] [3] tProof
      (by decide)

/-- C2: `_get_output_split` returns exactly the binary expansion of
`n`: the sum is `n`, every element is a power of two, no element
repeats, the order is strictly ascending (ascending bit position), the
result is empty for `n = 0`, and the three concrete examples of the
spec hold. -/
theorem amount_split_correct (n : Nat) :
    (amount_split n).sum = n
    ∧ (∀ x ∈ amount_split n, ∃ j : Nat, x = 2 ^ j)
    ∧ (amount_split n).Nodup
    ∧ (amount_split n).Sorted (· < ·)
    ∧ amount_split 0 = []
    ∧ amount_split 1 = [1]
    ∧ amount_split 7 = [1, 2, 4] := by
  refine ⟨amount_split_sum n, ?_, amount_split_nodup n, amount_split_sorted n,
    by decide, by decide, by decide⟩
  intro x hx
  obtain ⟨j, hj, -⟩ := splitBits_mem_pow (bitsOf n) 0 x hx
  exact ⟨j, hj⟩

/-!
## Helper lemmas for the split conservation law
-/

theorem construct_outputs_map_amount (h2c : String → Point) :
    ∀ (secrets : List String) (amounts : List Int) (rs : List Point),
      secrets.length = amounts.length → rs.length = amounts.length →
      (construct_outputs h2c amounts secrets rs).1.map (·.amount) = amounts := by
  intro secrets
  induction secrets with
  | nil =>
    intro amounts rs h1 _
    obtain rfl : amounts = [] := List.length_eq_zero.mp h1.symm
    simp [construct_outputs]
  | cons s ss ih =>
    intro amounts rs h1 h2
    match amounts, rs with
    | [], _ => simp at h1
    | _ :: _, [] => simp at h2
    | a :: as, r :: rr =>
      simp only [List.length_cons] at h1 h2
      simpa [construct_outputs] using ih as rr (by omega) (by omega)

theorem construct_outputs_snd_length (h2c : String → Point) :
    ∀ (secrets : List String) (amounts : List Int) (rs : List Point),
      secrets.length = amounts.length → rs.length = amounts.length →
      (construct_outputs h2c amounts secrets rs).2.length = amounts.length := by
  intro secrets
  induction secrets with
  | nil =>
    intro amounts rs h1 _
    obtain rfl : amounts = [] := List.length_eq_zero.mp h1.symm
    simp [construct_outputs]
  | cons s ss ih =>
    intro amounts rs h1 h2
    match amounts, rs with
    | [], _ => simp at h1
    | _ :: _, [] => simp at h2
    | a :: as, r :: rr =>
      simp only [List.length_cons] at h1 h2
      simpa [construct_outputs] using ih as rr (by omega) (by omega)

theorem sign_outputs_map_amount (mintKeys : Int → Point) (msgs : List BlindedMessage) :
    (sign_outputs mintKeys msgs).map (·.amount) = msgs.map (·.amount) := by
  induction msgs with
  | nil => simp [sign_outputs]
  | cons m ms ih => simp [sign_outputs]

theorem construct_proofs_map_amount (keys : Int → Point) :
    ∀ (promises : List BlindedSignature) (secrets : List String) (rs : List Point),
      promises.length ≤ secrets.length → promises.length ≤ rs.length →
      (construct_proofs keys promises secrets rs).map (·.amount)
        = promises.map (·.amount) := by
  intro promises
  induction promises with
  | nil => intro secrets rs _ _; simp [construct_proofs]
  | cons pr prs ih =>
    intro secrets rs h1 h2
    match secrets, rs with
    | [], _ => simp at h1
    | _ :: _, [] => simp at h2
    | s :: ss, r :: rr =>
      simp only [List.length_cons] at h1 h2
      simpa [construct_proofs] using ih ss rr (by omega) (by omega)

/-- The secrets chosen inside `LedgerAPI.split` are as many as the
output amounts, in either branch. -/
theorem split_output_secrets_length (proofs : List Proof) (amount : Int)
    (snd_secret : Option String) (secretF : Nat → String) :
    (split_output_secrets proofs amount snd_secret secretF).length
      = (split_output_amounts proofs amount).length := by
  cases snd_secret <;>
    simp [split_output_secrets, split_output_amounts, generate_deterministic_secrets]

theorem sign_outputs_length (mintKeys : Int → Point) (msgs : List BlindedMessage) :
    (sign_outputs mintKeys msgs).length = msgs.length := by
  simp [sign_outputs]

/-- Inversion of a successful spec-mint split: the amount bounds, the
two partition sums, and the shape of the returned signatures. -/
theorem mint_split_eq_some (h2c : String → Point) (mintKeys : Int → Point)
    (spent : List String) (inputs : List Proof) (amount : Int)
    (outputs : List BlindedMessage)
    (t : List BlindedSignature × List BlindedSignature × List String)
    (h : mint_split h2c mintKeys spent inputs amount outputs = some t) :
    0 ≤ amount ∧ amount ≤ (inputs.map (·.amount)).sum
    ∧ ((outputs.take
          (amount_split_int ((inputs.map (·.amount)).sum - amount)).length).map
            (·.amount)).sum
        = (inputs.map (·.amount)).sum - amount
    ∧ ((outputs.drop
          (amount_split_int ((inputs.map (·.amount)).sum - amount)).length).map
            (·.amount)).sum
        = amount
    ∧ t.1 = sign_outputs mintKeys
        (outputs.take (amount_split_int ((inputs.map (·.amount)).sum - amount)).length)
    ∧ t.2.1 = sign_outputs mintKeys
        (outputs.drop (amount_split_int ((inputs.map (·.amount)).sum - amount)).length) := by
  simp only [mint_split] at h
  split at h
  · simp at h
  split at h
  · simp at h
  split at h
  · simp at h
  split at h
  · simp at h
  split at h
  · simp at h
  rename_i hamt hsums
  push_neg at hamt hsums
  simp only [Option.some.injEq] at h
  refine ⟨hamt.1, hamt.2, hsums.1, hsums.2, ?_, ?_⟩
  · rw [← h]
  · rw [← h]

theorem ledger_split_core_sums (h2c : String → Point)
    (mintKeys pubKeys : Int → Point) (spent : List String)
    (db : List Proof) (proofs : List Proof) (amount : Int)
    (amounts : List Int) (secrets : List String) (rsIn : List Point)
    (hsec : secrets.length = amounts.length) (hrs : rsIn.length = amounts.length)
    (fstP sndP : List Proof)
    (h : ledger_split_core h2c pubKeys (spec_mint_split h2c mintKeys spent) db proofs
        amount amounts secrets rsIn = some (fstP, sndP)) :
    (fstP.map (·.amount)).sum = (proofs.map (·.amount)).sum - amount
    ∧ (sndP.map (·.amount)).sum = amount := by
  have hout1 : (construct_outputs h2c amounts secrets rsIn).1.map (·.amount) = amounts :=
    construct_outputs_map_amount h2c secrets amounts rsIn hsec hrs
  have hout1len : (construct_outputs h2c amounts secrets rsIn).1.length = amounts.length := by
    have := congrArg List.length hout1; simpa using this
  have hout2len : (construct_outputs h2c amounts secrets rsIn).2.length = amounts.length :=
    construct_outputs_snd_length h2c secrets amounts rsIn hsec hrs
  simp only [ledger_split_core] at h
  split at h
  · simp at h
  split at h
  · simp at h
  rename_i r heq
  simp only [spec_mint_split, Option.map_eq_some'] at heq
  obtain ⟨t, ht, htr⟩ := heq
  obtain ⟨hamt0, hamtle, hsumF, hsumS, ht1, ht2⟩ :=
    mint_split_eq_some h2c mintKeys spent proofs amount
      (construct_outputs h2c amounts secrets rsIn).1 t ht
  simp only [Option.some.injEq, Prod.mk.injEq] at h
  obtain ⟨hf, hs⟩ := h
  subst htr
  have hlenF : t.1.length
      = ((construct_outputs h2c amounts secrets rsIn).1.take
          (amount_split_int ((proofs.map (·.amount)).sum - amount)).length).length := by
    rw [ht1, sign_outputs_length]
  have hlenS : t.2.1.length
      = ((construct_outputs h2c amounts secrets rsIn).1.drop
          (amount_split_int ((proofs.map (·.amount)).sum - amount)).length).length := by
    rw [ht2, sign_outputs_length]
  constructor
  · rw [← hf, construct_proofs_map_amount pubKeys t.1
      (secrets.take t.1.length)
      ((construct_outputs h2c amounts secrets rsIn).2.take t.1.length)
      (by simp only [List.length_take]; simp only [List.length_take] at hlenF; omega)
      (by simp only [List.length_take]; simp only [List.length_take] at hlenF; omega)]
    rw [ht1, sign_outputs_map_amount]
    exact hsumF
  · rw [← hs, construct_proofs_map_amount pubKeys t.2.1
      (secrets.drop t.1.length)
      ((construct_outputs h2c amounts secrets rsIn).2.drop t.1.length)
      (by simp only [List.length_drop]
          simp only [List.length_take, List.length_drop] at hlenF hlenS; omega)
      (by simp only [List.length_drop]
          simp only [List.length_take, List.length_drop] at hlenF hlenS; omega)]
    rw [ht2, sign_outputs_map_amount]
    exact hsumS

theorem ledger_split_spec_mint_sums (h2c : String → Point)
    (mintKeys pubKeys : Int → Point) (spent : List String)
    (db : List Proof) (proofs : List Proof) (amount : Int)
    (snd_secret : Option String) (secretF : Nat → String) (rsF : Nat → Point)
    (fstP sndP : List Proof)
    (h : ledger_split h2c pubKeys (spec_mint_split h2c mintKeys spent) db proofs
        amount snd_secret secretF rsF = (some (fstP, sndP))) :
    (fstP.map (·.amount)).sum = (proofs.map (·.amount)).sum - amount
    ∧ (sndP.map (·.amount)).sum = amount := by
  simp only [ledger_split] at h
  exact ledger_split_core_sums h2c mintKeys pubKeys spent db proofs amount _ _ _
    (split_output_secrets_length proofs amount snd_secret secretF) (by simp)
    fstP sndP h

/-- Inversion of a successful `Wallet.split`: the input list was
non-empty, the ledger-level split succeeded with the returned pair,
not both returned lists are empty, and the new state is the filtered
memory/store with the new proofs appended. -/
theorem wallet_split_eq_some (h2c : String → Point) (keys : Int → Point)
    (mint : MintSplitFn) (st : WalletState) (proofs : List Proof) (amount : Int)
    (snd_secret : Option String) (secretF : Nat → String) (rsF : Nat → Point)
    (fstP sndP : List Proof) (st' : WalletState)
    (h : wallet_split h2c keys mint st proofs amount snd_secret secretF rsF
        = (some (fstP, sndP), st')) :
    proofs ≠ []
    ∧ ledger_split h2c keys mint st.db proofs amount snd_secret secretF rsF
        = some (fstP, sndP)
    ∧ (fstP ≠ [] ∨ sndP ≠ [])
    ∧ st'.proofs = (st.proofs.filter fun p => decide (p.secret ∉ proofs.map (·.secret)))
        ++ fstP ++ sndP
    ∧ st'.db = (st.db ++ fstP ++ sndP).filter fun p =>
        decide (p.secret ∉ proofs.map (·.secret)) := by
  simp only [wallet_split] at h
  split at h
  · simp at h
  rename_i hne
  split at h
  · simp at h
  rename_i r heq
  split at h
  · simp at h
  rename_i hboth
  simp only [Prod.mk.injEq, Option.some.injEq] at h
  obtain ⟨hr, hst⟩ := h
  subst hr
  refine ⟨hne, heq, ?_, by rw [← hst], by rw [← hst]⟩
  by_cases h1 : fstP = []
  · by_cases h2 : sndP = []
    · exact absurd ⟨h1, h2⟩ hboth
    · exact Or.inr h2
  · exact Or.inl h1

/-- C3: amount conservation of `split`.  Against a spec-conformant
mint, whenever `Wallet.split(proofs, amount)` returns `(fst, snd)`,
`sum(fst.amount) + sum(snd.amount) = sum(proofs.amount)` and
`sum(snd.amount) = amount`. -/
theorem split_conserves_amounts (h2c : String → Point)
    (mintKeys pubKeys : Int → Point) (spent : List String)
    (st : WalletState) (proofs : List Proof) (amount : Int)
    (snd_secret : Option String) (secretF : Nat → String) (rsF : Nat → Point)
    (fstP sndP : List Proof) (st' : WalletState)
    (h : wallet_split h2c pubKeys (spec_mint_split h2c mintKeys spent) st proofs
        amount snd_secret secretF rsF = (some (fstP, sndP), st')) :
    (fstP.map (·.amount)).sum + (sndP.map (·.amount)).sum
        = (proofs.map (·.amount)).sum
    ∧ (sndP.map (·.amount)).sum = amount := by
  obtain ⟨-, heq, -, -⟩ := wallet_split_eq_some h2c pubKeys _ st proofs amount
    snd_secret secretF rsF fstP sndP st' h
  obtain ⟨h1, h2⟩ := ledger_split_spec_mint_sums h2c mintKeys pubKeys spent st.db
    proofs amount snd_secret secretF rsF fstP sndP heq
  constructor
  · rw [h1, h2]; ring
  · exact h2

/-! Concrete fixtures for the wallet-level witnesses. -/

def tInProof : Proof := { amount := 1, secret := "s0", C := 2 }

def tOutProof : Proof := { amount := 1, secret := "f0", C := 2 }

def tSecretF : Nat → String := fun i => "f" ++ toString i

def tRsF : Nat → Point := fun _ => 0

def tState : WalletState := { proofs := [tInProof], db := [tInProof] }

def tState' : WalletState := { proofs := [tOutProof], db := [tOutProof] }

/-- Witness for C3: a concrete successful split of a 1-sat proof with
`amount = 1` against the spec mint. -/
theorem split_conserves_amounts_witness :
    (([] : List Proof).map (·.amount)).sum + ([tOutProof].map (·.amount)).sum
        = ([tInProof].map (·.amount)).sum
    ∧ ([tOutProof].map (·.amount)).sum = 1 :=
  split_conserves_amounts tH2c tKeys tPub [] tState [tInProof] 1 none tSecretF tRsF
    [] [tOutProof] { proofs := [tOutProof], db := [tOutProof] } (by decide)

/-!
## Secrets of the proofs produced by `split`
-/

theorem construct_proofs_secret_mem (keys : Int → Point) :
    ∀ (promises : List BlindedSignature) (secrets : List String) (rs : List Point),
      ∀ p ∈ construct_proofs keys promises secrets rs, p.secret ∈ secrets := by
  intro promises
  induction promises with
  | nil => intro secrets rs p hp; simp [construct_proofs] at hp
  | cons pr prs ih =>
    intro secrets rs p hp
    match secrets, rs with
    | [], _ => simp [construct_proofs] at hp
    | _ :: _, [] => simp [construct_proofs] at hp
    | s :: ss, r :: rr =>
      simp only [construct_proofs, List.zip_cons_cons, List.map_cons,
        List.mem_cons] at hp
      rcases hp with hp | hp
      · subst hp; exact List.mem_cons_self _ _
      · exact List.mem_cons_of_mem _ (ih ss rr p
          (by simpa [construct_proofs] using hp))

theorem construct_proofs_map_secret (keys : Int → Point) :
    ∀ (promises : List BlindedSignature) (secrets : List String) (rs : List Point),
      promises.length ≤ secrets.length → promises.length ≤ rs.length →
      (construct_proofs keys promises secrets rs).map (·.secret)
        = secrets.take promises.length := by
  intro promises
  induction promises with
  | nil => intro secrets rs _ _; simp [construct_proofs]
  | cons pr prs ih =>
    intro secrets rs h1 h2
    match secrets, rs with
    | [], _ => simp at h1
    | _ :: _, [] => simp at h2
    | s :: ss, r :: rr =>
      simp only [List.length_cons] at h1 h2
      simpa [construct_proofs] using ih ss rr (by omega) (by omega)

/-- On a successful `ledger_split_core`, every secret of an output
proof is one of the chosen output secrets, hence (by the
`_check_used_secrets` guard) not present in the local store. -/
theorem ledger_split_core_new_secrets (h2c : String → Point) (keys : Int → Point)
    (mint : MintSplitFn) (db : List Proof) (proofs : List Proof) (amount : Int)
    (amounts : List Int) (secrets : List String) (rsIn : List Point)
    (fstP sndP : List Proof)
    (h : ledger_split_core h2c keys mint db proofs amount amounts secrets rsIn
        = some (fstP, sndP)) :
    ∀ p ∈ fstP ++ sndP, secret_used db p.secret = false := by
  simp only [ledger_split_core] at h
  split at h
  · simp at h
  rename_i hused
  split at h
  · simp at h
  rename_i r heq
  simp only [Option.some.injEq, Prod.mk.injEq] at h
  obtain ⟨hf, hs⟩ := h
  intro p hp
  have hmem : p.secret ∈ secrets := by
    rcases List.mem_append.mp hp with hp | hp
    · subst hf
      exact List.take_subset _ _ (construct_proofs_secret_mem keys r.1 _ _ p hp)
    · subst hs
      exact List.drop_subset _ _ (construct_proofs_secret_mem keys r.2 _ _ p hp)
  have hall : check_used_secrets_fails db secrets = false := by
    simpa using hused
  simp only [check_used_secrets_fails, List.any_eq_false] at hall
  exact Bool.eq_false_iff.mpr (hall _ hmem)

theorem ledger_split_new_secrets (h2c : String → Point) (keys : Int → Point)
    (mint : MintSplitFn) (db : List Proof) (proofs : List Proof) (amount : Int)
    (snd_secret : Option String) (secretF : Nat → String) (rsF : Nat → Point)
    (fstP sndP : List Proof)
    (h : ledger_split h2c keys mint db proofs amount snd_secret secretF rsF
        = some (fstP, sndP)) :
    ∀ p ∈ fstP ++ sndP, secret_used db p.secret = false := by
  simp only [ledger_split] at h
  exact ledger_split_core_new_secrets h2c keys mint db proofs amount _ _ _
    fstP sndP h

/-- C9: after a successful `Wallet.split(proofs, amount)` whose inputs
were stored locally, the in-memory list is the old list purged of all
consumed secrets with the fresh `fst`/`snd` proofs appended, and no
proof carrying a consumed input secret remains in `self.proofs`. -/
theorem split_removes_consumed_secrets (h2c : String → Point) (keys : Int → Point)
    (mint : MintSplitFn) (st : WalletState) (proofs : List Proof) (amount : Int)
    (snd_secret : Option String) (secretF : Nat → String) (rsF : Nat → Point)
    (fstP sndP : List Proof) (st' : WalletState)
    (hdb : ∀ p ∈ proofs, secret_used st.db p.secret = true)
    (h : wallet_split h2c keys mint st proofs amount snd_secret secretF rsF
        = (some (fstP, sndP), st')) :
    st'.proofs = (st.proofs.filter fun p => decide (p.secret ∉ proofs.map (·.secret)))
        ++ fstP ++ sndP
    ∧ ∀ q ∈ st'.proofs, q.secret ∉ proofs.map (·.secret) := by
  obtain ⟨-, heq, -, hmem, -⟩ := wallet_split_eq_some h2c keys mint st proofs amount
    snd_secret secretF rsF fstP sndP st' h
  refine ⟨hmem, ?_⟩
  intro q hq hcon
  rw [hmem] at hq
  obtain ⟨p, hp, hps⟩ := List.mem_map.mp hcon
  have hnew : q ∈ fstP ++ sndP → False := by
    intro hq'
    have hfalse := ledger_split_new_secrets h2c keys mint st.db proofs amount
      snd_secret secretF rsF fstP sndP heq q hq'
    have htrue := hdb p hp
    rw [hps] at htrue
    rw [htrue] at hfalse
    simp at hfalse
  rcases List.mem_append.mp hq with hq' | hq'
  · rcases List.mem_append.mp hq' with hq'' | hq''
    · have hfp := (List.mem_filter.mp hq'').2
      simp only [decide_eq_true_eq] at hfp
      exact hfp hcon
    · exact hnew (List.mem_append_left _ hq'')
  · exact hnew (List.mem_append_right _ hq')

/-- Witness for C9: the concrete 1-sat split; afterwards the consumed
secret `"s0"` is gone from memory. -/
theorem split_removes_consumed_secrets_witness :
    tState'.proofs
        = (tState.proofs.filter fun p => decide (p.secret ∉ [tInProof].map (·.secret)))
          ++ [] ++ [tOutProof]
    ∧ tOutProof.secret ∉ [tInProof].map (·.secret) := by
  have h := split_removes_consumed_secrets tH2c tPub (spec_mint_split tH2c tKeys [])
    tState [tInProof] 1 none tSecretF tRsF [] [tOutProof] tState'
    (by decide) (by decide)
  exact ⟨h.1, h.2 tOutProof (by decide)⟩

/-- C10: `Wallet.split` on an empty proof list fails identically for
every mint behaviour (the assertion precedes the mint call, so the
mint is never contacted), and a successful return never has both
result lists empty. -/
theorem split_empty_guard (h2c : String → Point) (keys : Int → Point) :
    (∀ (mint : MintSplitFn) (st : WalletState) (amount : Int)
        (snd_secret : Option String) (secretF : Nat → String) (rsF : Nat → Point),
      wallet_split h2c keys mint st [] amount snd_secret secretF rsF = (none, st))
    ∧ ∀ (mint : MintSplitFn) (st : WalletState) (proofs : List Proof) (amount : Int)
        (snd_secret : Option String) (secretF : Nat → String) (rsF : Nat → Point)
        (fstP sndP : List Proof) (st' : WalletState),
        wallet_split h2c keys mint st proofs amount snd_secret secretF rsF
          = (some (fstP, sndP), st') →
        fstP ≠ [] ∨ sndP ≠ [] := by
  constructor
  · intro mint st amount snd_secret secretF rsF
    simp [wallet_split]
  · intro mint st proofs amount snd_secret secretF rsF fstP sndP st' h
    exact (wallet_split_eq_some h2c keys mint st proofs amount snd_secret secretF
      rsF fstP sndP st' h).2.2.1

/-- Witness for C10: the empty-input guard at concrete arguments, and
a concrete successful `split(amount = 0)` whose `fst` list is
non-empty. -/
theorem split_empty_guard_witness :
    wallet_split tH2c tPub (spec_mint_split tH2c tKeys []) tState [] 5 none
        tSecretF tRsF = (none, tState)
    ∧ (([tOutProof] : List Proof) ≠ [] ∨ ([] : List Proof) ≠ []) := by
  constructor
  · exact (split_empty_guard tH2c tPub).1 (spec_mint_split tH2c tKeys []) tState 5
      none tSecretF tRsF
  · exact (split_empty_guard tH2c tPub).2 (spec_mint_split tH2c tKeys []) tState
      [tInProof] 0 none tSecretF tRsF [tOutProof] [] tState' (by decide)

/-!
## Deterministic send secrets (C6)
-/

theorem ledger_split_core_secrets (h2c : String → Point)
    (mintKeys pubKeys : Int → Point) (spent : List String)
    (db : List Proof) (proofs : List Proof) (amount : Int)
    (amounts : List Int) (secrets : List String) (rsIn : List Point)
    (hsec : secrets.length = amounts.length) (hrs : rsIn.length = amounts.length)
    (hcut : (amount_split_int ((proofs.map (·.amount)).sum - amount)).length
        ≤ amounts.length)
    (fstP sndP : List Proof)
    (h : ledger_split_core h2c pubKeys (spec_mint_split h2c mintKeys spent) db proofs
        amount amounts secrets rsIn = some (fstP, sndP)) :
    fstP.map (·.secret)
        = secrets.take (amount_split_int ((proofs.map (·.amount)).sum - amount)).length
    ∧ sndP.map (·.secret)
        = secrets.drop (amount_split_int ((proofs.map (·.amount)).sum - amount)).length := by
  have hout1 : (construct_outputs h2c amounts secrets rsIn).1.map (·.amount) = amounts :=
    construct_outputs_map_amount h2c secrets amounts rsIn hsec hrs
  have hout1len : (construct_outputs h2c amounts secrets rsIn).1.length = amounts.length := by
    have := congrArg List.length hout1; simpa using this
  have hout2len : (construct_outputs h2c amounts secrets rsIn).2.length = amounts.length :=
    construct_outputs_snd_length h2c secrets amounts rsIn hsec hrs
  simp only [ledger_split_core] at h
  split at h
  · simp at h
  split at h
  · simp at h
  rename_i r heq
  simp only [spec_mint_split, Option.map_eq_some'] at heq
  obtain ⟨t, ht, htr⟩ := heq
  obtain ⟨-, -, -, -, ht1, ht2⟩ :=
    mint_split_eq_some h2c mintKeys spent proofs amount
      (construct_outputs h2c amounts secrets rsIn).1 t ht
  simp only [Option.some.injEq, Prod.mk.injEq] at h
  obtain ⟨hf, hs⟩ := h
  subst htr
  have ht1len : t.1.length
      = (amount_split_int ((proofs.map (·.amount)).sum - amount)).length := by
    rw [ht1, sign_outputs_length, List.length_take, hout1len]
    exact Nat.min_eq_left hcut
  have ht2len : t.2.1.length
      = amounts.length
        - (amount_split_int ((proofs.map (·.amount)).sum - amount)).length := by
    rw [ht2, sign_outputs_length, List.length_drop, hout1len]
  constructor
  · rw [← hf, construct_proofs_map_secret pubKeys t.1
      (secrets.take t.1.length)
      ((construct_outputs h2c amounts secrets rsIn).2.take t.1.length)
      (by rw [List.length_take, ht1len, hsec]; omega)
      (by rw [List.length_take, ht1len, hout2len]; omega)]
    rw [List.take_take]
    simp only [Nat.min_self]
    rw [ht1len]
  · rw [← hs, construct_proofs_map_secret pubKeys t.2.1
      (secrets.drop t.1.length)
      ((construct_outputs h2c amounts secrets rsIn).2.drop t.1.length)
      (by rw [List.length_drop, ht2len, ht1len, hsec])
      (by rw [List.length_drop, ht2len, ht1len, hout2len])]
    rw [ht1len, ht2len]
    exact List.take_of_length_le (by rw [List.length_drop, hsec])

/-- With a provided `snd_secret`, the ledger-level split (against the
spec mint) labels the `snd` proofs with exactly the deterministic
sequence and the `fst` proofs with the freshly drawn random secrets. -/
theorem ledger_split_deterministic_secrets (h2c : String → Point)
    (mintKeys pubKeys : Int → Point) (spent : List String)
    (db : List Proof) (proofs : List Proof) (amount : Int) (ss : String)
    (secretF : Nat → String) (rsF : Nat → Point) (fstP sndP : List Proof)
    (h : ledger_split h2c pubKeys (spec_mint_split h2c mintKeys spent) db proofs
        amount (some ss) secretF rsF = some (fstP, sndP)) :
    fstP.map (·.secret)
        = (List.range
            (amount_split_int ((proofs.map (·.amount)).sum - amount)).length).map secretF
    ∧ sndP.map (·.secret)
        = generate_deterministic_secrets ss (amount_split_int amount).length := by
  simp only [ledger_split] at h
  obtain ⟨h1, h2⟩ := ledger_split_core_secrets h2c mintKeys pubKeys spent db proofs
    amount (split_output_amounts proofs amount)
    (split_output_secrets proofs amount (some ss) secretF)
    _ (split_output_secrets_length proofs amount (some ss) secretF) (by simp)
    (by simp [split_output_amounts]) fstP sndP h
  constructor
  · rw [h1]
    simp only [split_output_secrets]
    rw [List.take_left' (by simp)]
  · rw [h2]
    simp only [split_output_secrets]
    rw [List.drop_left' (by simp)]

/-- C6: in `Wallet.split(proofs, amount, snd_secret)` with a provided
`snd_secret`, the secrets of the returned `snd` proofs are exactly
`f"{snd_secret}_{0}", …, f"{snd_secret}_{k-1}"` in order, with `k` the
number of snd outputs (`len(amount_split(amount))`), while the `fst`
proofs carry the freshly generated random secrets. -/
theorem split_deterministic_snd_secrets (h2c : String → Point)
    (mintKeys pubKeys : Int → Point) (spent : List String)
    (st : WalletState) (proofs : List Proof) (amount : Int) (ss : String)
    (secretF : Nat → String) (rsF : Nat → Point)
    (fstP sndP : List Proof) (st' : WalletState)
    (h : wallet_split h2c pubKeys (spec_mint_split h2c mintKeys spent) st proofs
        amount (some ss) secretF rsF = (some (fstP, sndP), st')) :
    sndP.map (·.secret)
        = generate_deterministic_secrets ss (amount_split_int amount).length
    ∧ fstP.map (·.secret)
        = (List.range
            (amount_split_int ((proofs.map (·.amount)).sum - amount)).length).map
          secretF := by
  obtain ⟨-, heq, -, -, -⟩ := wallet_split_eq_some h2c pubKeys _ st proofs amount
    (some ss) secretF rsF fstP sndP st' h
  obtain ⟨h1, h2⟩ := ledger_split_deterministic_secrets h2c mintKeys pubKeys spent
    st.db proofs amount ss secretF rsF fstP sndP heq
  exact ⟨h2, h1⟩

/-! Fixtures for the C6 witness: send 3 sat with `snd_secret = "abc"`,
so the snd outputs are `[1, 2]` and the deterministic secrets are
`["abc_0", "abc_1"]`. -/

def tInProof3 : Proof := { amount := 3, secret := "s3", C := 2 }

def tAbcProof1 : Proof := { amount := 1, secret := "abc_0", C := 2 }

def tAbcProof2 : Proof := { amount := 2, secret := "abc_1", C := 2 }

def tState3 : WalletState := { proofs := [tInProof3], db := [tInProof3] }

/-- Witness for C6: the concrete run produces exactly
`["abc_0", "abc_1"]`, in that order. -/
theorem split_deterministic_snd_secrets_witness :
    [tAbcProof1, tAbcProof2].map (·.secret)
        = generate_deterministic_secrets "abc" (amount_split_int 3).length
    ∧ ([] : List Proof).map (·.secret)
        = (List.range
            (amount_split_int (([tInProof3].map (·.amount)).sum - 3)).length).map
          tSecretF :=
  split_deterministic_snd_secrets tH2c tKeys tPub [] tState3 [tInProof3] 3 "abc"
    tSecretF tRsF [] [tAbcProof1, tAbcProof2]
    { proofs := [tAbcProof1, tAbcProof2], db := [tAbcProof1, tAbcProof2] }
    (by decide)

/-!
## Local secret collisions (C4)

`LedgerAPI._check_used_secrets` raises `Exception("secret already
used: …")` and neither `LedgerAPI.mint` nor `LedgerAPI.split` catches
it or retries with fresh randomness: on a local collision the whole
operation fails.  The check does precede the HTTP call, so the mint is
never contacted.
-/

/-- A mint `/mint` endpoint that always signs (with the fixture keys),
used to show that the wallet fails on a collision no matter what the
mint would have answered. -/
def tMintSign : MintSignFn := fun msgs => some (sign_outputs tKeys msgs)

/-- A wallet state whose store already holds the secret `"f0"` — the
first secret the randomness oracle `tSecretF` will produce. -/
def tCollideState : WalletState := { proofs := [tOutProof], db := [tOutProof] }

/-- C4 counterexample: the first generated secret `"f0"` is already in
the local store, and `Wallet.mint(1)` does not complete successfully —
it raises (returns `none`, state unchanged) even though the mint would
have signed; nothing is retried with a new secret. -/
theorem mint_no_retry_counterexample :
    check_used_secrets_fails tCollideState.db
        ((List.range (amount_split_int 1).length).map tSecretF) = true
    ∧ wallet_mint tH2c tPub tMintSign tCollideState 1 tSecretF tRsF
        = (none, tCollideState) := by
  decide

/-- C4 amended: when an intended fresh secret collides with the local
store, `Wallet.mint` and `Wallet.split` fail with the state unchanged,
and they do so for every mint behaviour — the error never surfaces to
the mint because the check precedes the call — but no retry with a new
secret happens. -/
theorem secret_collision_aborts (h2c : String → Point) (keys : Int → Point)
    (st : WalletState) (amount : Int) (secretF : Nat → String) (rsF : Nat → Point)
    (proofs : List Proof) (snd_secret : Option String)
    (hmint : check_used_secrets_fails st.db
        ((List.range (amount_split_int amount).length).map secretF) = true)
    (hsplit : check_used_secrets_fails st.db
        (split_output_secrets proofs amount snd_secret secretF) = true)
    (hproofs : proofs ≠ []) :
    (∀ mint : MintSignFn,
      wallet_mint h2c keys mint st amount secretF rsF = (none, st))
    ∧ ∀ mint : MintSplitFn,
        wallet_split h2c keys mint st proofs amount snd_secret secretF rsF
          = (none, st) := by
  constructor
  · intro mint
    simp [wallet_mint, ledger_mint, hmint]
  · intro mint
    simp [wallet_split, ledger_split, ledger_split_core, hsplit, hproofs]

/-- Witness for the amended C4, at the concrete colliding state. -/
theorem secret_collision_aborts_witness :
    wallet_mint tH2c tPub tMintSign tCollideState 1 tSecretF tRsF
        = (none, tCollideState)
    ∧ wallet_split tH2c tPub (spec_mint_split tH2c tKeys []) tCollideState
        [tInProof] 1 none tSecretF tRsF = (none, tCollideState) := by
  have h := secret_collision_aborts tH2c tPub tCollideState 1 tSecretF tRsF
    [tInProof] none (by decide) (by decide) (by decide)
  exact ⟨h.1 tMintSign, h.2 (spec_mint_split tH2c tKeys [])⟩

/-!
## `set_reserved` (C5)

The source sets `proof.reserved = True` on the in-memory objects
regardless of the `reserved` argument, while the store row is updated
with the actual flag (`update_proof_reserved(proof, reserved=reserved,
send_id=uuid_str)`), contradicting its own docstring ("… or delete
marking") and its own database write.
-/

def tResProof : Proof :=
  { amount := 1, secret := "r0", C := 0, reserved := true, send_id := "" }

def tResState : WalletState := { proofs := [tResProof], db := [tResProof] }

/-- C5 (code bug evidence): calling `set_reserved([p], reserved=False)`
leaves the in-memory proof (and the batch object) with
`reserved = True`, while the store row records `reserved = False` with
the fresh `send_id` — the in-memory flag contradicts both the claim
and the code's own persistent write. -/
theorem set_reserved_memory_flag_bug :
    ((set_reserved tResState [tResProof] false "u1").2.proofs.map (·.reserved)
        = [true])
    ∧ ((set_reserved tResState [tResProof] false "u1").1.map (·.reserved) = [true])
    ∧ ((set_reserved tResState [tResProof] false "u1").2.db.map (·.reserved)
        = [false])
    ∧ ((set_reserved tResState [tResProof] false "u1").2.db.map (·.send_id)
        = ["u1"]) := by
  decide

/-- C8: `Wallet.pay_lightning`.  If the mint reports `paid = false`
the wallet raises `PaymentFailed` (result `none`) with the state — in
particular the active proof set — completely unchanged; if it reports
`paid = true` the wallet runs `invalidate(proofs)`. -/
theorem pay_lightning_behaviour (st : WalletState) (proofs : List Proof)
    (amount : Int) (invoice : String) (spendables : List Bool) :
    pay_lightning st proofs amount invoice false spendables = (none, st)
    ∧ pay_lightning st proofs amount invoice true spendables
        = (some true, invalidate st proofs spendables) := by
  constructor <;> rfl

/-!
## Token serialization (C7)

`Wallet.serialize_proofs` is
`base64.urlsafe_b64encode(json.dumps([p.to_dict() for p in proofs]))`
(or `to_dict_no_secret()` when `hide_secrets` is set); the matching
`deserialize` and the `to_dict`/json/base64 internals are not under
`src/`, so the wire encoding is modelled from the spec:
`base64urlsafe(json([{amount, C, secret?}, …]))`, with `secret` an
opaque byte string and `C` the (hex) point string, both modelled as
byte lists.  JSON strings escape `"` and `\` with a backslash.
-/

/-- A byte. -/
abbrev Byte : Type := Fin 256

/-- Modelled from the spec: the wire form of a proof,
`{amount, C, secret}`. -/
structure WireProof where
  amount : Nat
  C : List Byte
  secret : List Byte
deriving DecidableEq, Repr

def byteOf (n : Nat) : Byte := ⟨n % 256, Nat.mod_lt n (by omega)⟩

/-! ### Decimal literals -/

def digitByte (d : Nat) : Byte := ⟨48 + d % 10, by omega⟩

/-- Decimal digits of `n` (most significant first), with fuel
(`n + 1` is always enough). -/
def decimalAux : Nat → Nat → List Byte
  | 0, _ => []
  | fuel + 1, n =>
    if n < 10 then [digitByte n]
    else decimalAux fuel (n / 10) ++ [digitByte (n % 10)]

def decimal (n : Nat) : List Byte := decimalAux (n + 1) n

def isDigit (b : Byte) : Bool := decide (48 ≤ b.val ∧ b.val ≤ 57)

def digitsVal (ds : List Byte) : Nat :=
  ds.foldl (fun acc d => 10 * acc + (d.val - 48)) 0

def parseNat (l : List Byte) : Option (Nat × List Byte) :=
  let ds := l.takeWhile isDigit
  if ds.isEmpty then none
  else some (digitsVal ds, l.dropWhile isDigit)

/-! ### JSON string bodies (escaping `"` and `\`) -/

def escapeBytes : List Byte → List Byte
  | [] => []
  | b :: bs => (if b.val = 34 ∨ b.val = 92 then [92, b] else [b]) ++ escapeBytes bs

/-- Parse a JSON string body up to and including the closing quote. -/
def parseStringBody : List Byte → Option (List Byte × List Byte)
  | [] => none
  | b :: rest =>
    if b.val = 34 then some ([], rest)
    else if b.val = 92 then
      match rest with
      | [] => none
      | c :: rest2 =>
        match parseStringBody rest2 with
        | none => none
        | some (s, r) => some (c :: s, r)
    else
      match parseStringBody rest with
      | none => none
      | some (s, r) => some (b :: s, r)
termination_by l => l.length

/-! ### The JSON shape of a proof object

`{"amount": N, "C": "…", "secret": "…"}` rendered as byte literals. -/

/-- The bytes of `{"amount": `. -/
def lit1 : List Byte := [123, 34, 97, 109, 111, 117, 110, 116, 34, 58, 32]

/-- The bytes of `, "C": "`. -/
def lit2 : List Byte := [44, 32, 34, 67, 34, 58, 32, 34]

/-- The bytes of `", "secret": "` (closing quote of the `C` value,
then the `secret` key and its opening quote). -/
def lit3 : List Byte := [34, 44, 32, 34, 115, 101, 99, 114, 101, 116, 34, 58, 32, 34]

/-- Tail of `lit3` without its leading quote (which `parseStringBody` already
consumed as the terminator of the `C` value). -/
def lit3Tail : List Byte := [44, 32, 34, 115, 101, 99, 114, 101, 116, 34, 58, 32, 34]

/-- The bytes of `"}`. -/
def lit4 : List Byte := [34, 125]

/-- Tail of `lit4` without its leading quote. -/
def lit4Tail : List Byte := [125]

/-- Modelled from the spec: `Proof.to_dict()` rendered as JSON. -/
def jsonProof (p : WireProof) : List Byte :=
  lit1 ++ decimal p.amount ++ lit2 ++ escapeBytes p.C ++ lit3
    ++ escapeBytes p.secret ++ lit4

/-- Modelled from the spec: `Proof.to_dict_no_secret()` rendered as
JSON — the `secret` field is omitted. -/
def jsonProofNoSecret (p : WireProof) : List Byte :=
  lit1 ++ decimal p.amount ++ lit2 ++ escapeBytes p.C ++ lit4

/-- Comma-space join of the rendered items (the body of the JSON array). -/
def jsonItems (f : WireProof → List Byte) : List WireProof → List Byte
  | [] => []
  | [p] => f p
  | p :: ps => f p ++ [44, 32] ++ jsonItems f ps

/-- Strip an expected literal prefix. -/
def expectLit : List Byte → List Byte → Option (List Byte)
  | [], l => some l
  | _ :: _, [] => none
  | p :: ps, b :: bs => if b = p then expectLit ps bs else none

def parseProof (l : List Byte) : Option (WireProof × List Byte) :=
  match expectLit lit1 l with
  | none => none
  | some l1 =>
    match parseNat l1 with
    | none => none
    | some (n, l2) =>
      match expectLit lit2 l2 with
      | none => none
      | some l3 =>
        match parseStringBody l3 with
        | none => none
        | some (c, l4) =>
          match expectLit lit3Tail l4 with
          | none => none
          | some l5 =>
            match parseStringBody l5 with
            | none => none
            | some (s, l6) =>
              match expectLit lit4Tail l6 with
              | none => none
              | some l7 => some ({ amount := n, C := c, secret := s }, l7)

/-- Parse `", "`-separated proof objects (fuel-bounded). -/
def parseItems : Nat → List Byte → Option (List WireProof × List Byte)
  | 0, _ => none
  | fuel + 1, l =>
    match parseProof l with
    | none => none
    | some (p, l1) =>
      if l1.take 2 = ([44, 32] : List Byte) then
        match parseItems fuel (l1.drop 2) with
        | none => none
        | some (ps, r) => some (p :: ps, r)
      else some ([p], l1)

/-! ### URL-safe base64 -/

/-- The URL-safe base64 alphabet `A–Z a–z 0–9 - _`. -/
def b64chars : List Byte :=
  [65, 66, 67, 68, 69, 70, 71, 72, 73, 74, 75, 76, 77,
   78, 79, 80, 81, 82, 83, 84, 85, 86, 87, 88, 89, 90,
   97, 98, 99, 100, 101, 102, 103, 104, 105, 106, 107, 108, 109,
   110, 111, 112, 113, 114, 115, 116, 117, 118, 119, 120, 121, 122,
   48, 49, 50, 51, 52, 53, 54, 55, 56, 57, 45, 95]

def encChar (s : Nat) : Byte := b64chars.getD s 65

def decCharAux : List Byte → Nat → Byte → Option Nat
  | [], _, _ => none
  | c :: cs, i, b => if c = b then some i else decCharAux cs (i + 1) b

def decChar (b : Byte) : Option Nat := decCharAux b64chars 0 b

/-- Modelled from the spec: `base64.urlsafe_b64encode`, three input
bytes to four alphabet characters, `'='`-padded. -/
def b64encode : List Byte → List Byte
  | [] => []
  | [a] => [encChar (a.val / 4), encChar (a.val % 4 * 16), 61, 61]
  | [a, b] =>
      [encChar (a.val / 4), encChar (a.val % 4 * 16 + b.val / 16),
       encChar (b.val % 16 * 4), 61]
  | a :: b :: c :: rest =>
      encChar (a.val / 4) :: encChar (a.val % 4 * 16 + b.val / 16) ::
        encChar (b.val % 16 * 4 + c.val / 64) :: encChar (c.val % 64) ::
        b64encode rest

/-- Modelled from the spec: `base64.urlsafe_b64decode`. -/
def b64decode : List Byte → Option (List Byte)
  | [] => some []
  | a :: b :: c :: d :: rest =>
    match decChar a, decChar b with
    | some sa, some sb =>
      if c.val = 61 then
        if d.val = 61 ∧ rest = [] then some [byteOf (sa * 4 + sb / 16)] else none
      else
        match decChar c with
        | some sc =>
          if d.val = 61 then
            if rest = [] then
              some [byteOf (sa * 4 + sb / 16), byteOf (sb % 16 * 16 + sc / 4)]
            else none
          else
            match decChar d with
            | some sd =>
              match b64decode rest with
              | some bs =>
                some (byteOf (sa * 4 + sb / 16) :: byteOf (sb % 16 * 16 + sc / 4) ::
                  byteOf (sc % 4 * 64 + sd) :: bs)
              | none => none
            | none => none
        | none => none
    | _, _ => none
  | _ => none

/-!  ### serialize / deserialize -/

/-- Embedding of `Wallet.serialize_proofs(proofs, hide_secrets)`: the URL-safe
base64 of the JSON array of the proofs' dicts, omitting the `secret`
field exactly when `hide_secrets` is set. -/
def serialize_proofs (proofs : List WireProof) (hide_secrets : Bool) : List Byte :=
  b64encode ([91]
    ++ jsonItems (if hide_secrets then jsonProofNoSecret else jsonProof) proofs
    ++ [93])

/-- Modelled from the spec: the recipient-side `deserialize(token)` —
base64-decode, then parse the JSON proof array (strictly: the whole
token must be consumed). -/
def deserialize (token : List Byte) : Option (List WireProof) :=
  match b64decode token with
  | none => none
  | some j =>
    match expectLit [91] j with
    | none => none
    | some j1 =>
      if j1 = [93] then some []
      else
        match parseItems j1.length j1 with
        | none => none
        | some (ps, r) => if r = [93] then some ps else none

/-! ### Round-trip lemmas: decimal numbers -/

theorem decimalAux_ne_nil (fuel n : Nat) (h : 0 < fuel) : decimalAux fuel n ≠ [] := by
  match fuel with
  | f + 1 =>
    simp only [decimalAux]
    split
    · simp
    · simp

theorem decimalAux_digits (fuel : Nat) :
    ∀ n : Nat, ∀ b ∈ decimalAux fuel n, isDigit b = true := by
  induction fuel with
  | zero => intro n b hb; simp [decimalAux] at hb
  | succ f ih =>
    intro n b hb
    simp only [decimalAux] at hb
    split at hb
    · simp only [List.mem_singleton] at hb
      subst hb
      simp only [isDigit, digitByte, decide_eq_true_eq]
      omega
    · rcases List.mem_append.mp hb with hb | hb
      · exact ih _ b hb
      · simp only [List.mem_singleton] at hb
        subst hb
        simp only [isDigit, digitByte, decide_eq_true_eq]
        omega

theorem digitsVal_append_digit (xs : List Byte) (d : Byte) :
    digitsVal (xs ++ [d]) = 10 * digitsVal xs + (d.val - 48) := by
  simp [digitsVal]

theorem decimalAux_val (fuel : Nat) :
    ∀ n : Nat, n ≤ fuel → digitsVal (decimalAux fuel n) = n := by
  induction fuel with
  | zero =>
    intro n hn
    interval_cases n
    simp [decimalAux, digitsVal]
  | succ f ih =>
    intro n hn
    simp only [decimalAux]
    split
    · rename_i hlt
      simp only [digitsVal, digitByte, List.foldl_cons, List.foldl_nil]
      omega
    · rename_i hge
      rw [digitsVal_append_digit, ih (n / 10) (by omega)]
      simp only [digitByte]
      omega

theorem takeWhile_digits_append (rest : List Byte)
    (hrest : ∀ b, rest.head? = some b → isDigit b = false) :
    ∀ xs : List Byte, (∀ b ∈ xs, isDigit b = true) →
      (xs ++ rest).takeWhile isDigit = xs
      ∧ (xs ++ rest).dropWhile isDigit = rest := by
  intro xs
  induction xs with
  | nil =>
    intro _
    match hr : rest with
    | [] => simp
    | b :: r =>
      have := hrest b (by simp)
      simp [List.takeWhile, List.dropWhile, this]
  | cons x xs ih =>
    intro hx
    have hxd : isDigit x = true := hx x (by simp)
    obtain ⟨h1, h2⟩ := ih (fun b hb => hx b (by simp [hb]))
    simp [List.takeWhile, List.dropWhile, hxd, h1, h2]

theorem parseNat_decimal (n : Nat) (rest : List Byte)
    (hrest : ∀ b, rest.head? = some b → isDigit b = false) :
    parseNat (decimal n ++ rest) = some (n, rest) := by
  obtain ⟨h1, h2⟩ := takeWhile_digits_append rest hrest (decimal n)
    (decimalAux_digits (n + 1) n)
  simp only [decimal] at h1 h2 ⊢
  simp only [parseNat, h1, h2, List.isEmpty_iff]
  rw [if_neg (decimalAux_ne_nil (n + 1) n (by omega))]
  rw [decimalAux_val (n + 1) n (by omega)]

/-! ### Round-trip lemmas: literals and string bodies -/

theorem expectLit_append (rest : List Byte) :
    ∀ pat : List Byte, expectLit pat (pat ++ rest) = some rest := by
  intro pat
  induction pat with
  | nil => simp [expectLit]
  | cons p ps ih => simp [expectLit, ih]

theorem parseStringBody_escape (rest : List Byte) :
    ∀ s : List Byte,
      parseStringBody (escapeBytes s ++ (34 : Byte) :: rest) = some (s, rest) := by
  intro s
  induction s with
  | nil =>
    have h34 : ((34 : Byte)).val = 34 := rfl
    simp only [escapeBytes, List.nil_append]
    rw [parseStringBody.eq_def]
    simp [h34]
  | cons b bs ih =>
    simp only [escapeBytes]
    by_cases hb : b.val = 34 ∨ b.val = 92
    · rw [if_pos hb]
      have h92a : ((92 : Byte)).val = 92 := rfl
      simp only [List.cons_append, List.append_assoc]
      rw [parseStringBody.eq_def]
      simp [h92a, ih]
    · rw [if_neg hb]
      push_neg at hb
      simp only [List.cons_append, List.append_assoc]
      rw [parseStringBody.eq_def]
      simp [hb.1, hb.2, ih]

theorem parseNat_decimal_lit2 (n : Nat) (X : List Byte) :
    parseNat (decimal n ++ (lit2 ++ X)) = some (n, lit2 ++ X) := by
  refine parseNat_decimal n (lit2 ++ X) ?_
  intro b hb
  simp only [lit2, List.cons_append, List.head?_cons, Option.some.injEq] at hb
  subst hb
  decide

theorem parseProof_jsonProof (p : WireProof) (rest : List Byte) :
    parseProof (jsonProof p ++ rest) = some (p, rest) := by
  have hlit3 : lit3 = (34 : Byte) :: lit3Tail := rfl
  have hlit4 : lit4 = (34 : Byte) :: lit4Tail := rfl
  simp only [jsonProof, hlit3, hlit4, List.append_assoc, List.cons_append]
  simp only [parseProof, parseNat_decimal_lit2, expectLit_append,
    parseStringBody_escape]

theorem parseItems_jsonItems :
    ∀ (ps : List WireProof) (fuel : Nat) (rest : List Byte),
      ps ≠ [] → ps.length ≤ fuel →
      (∀ b, rest.head? = some b → b.val ≠ 44) →
      parseItems fuel (jsonItems jsonProof ps ++ rest) = some (ps, rest) := by
  intro ps
  induction ps with
  | nil => intro fuel rest h _ _; exact absurd rfl h
  | cons p ps ih =>
    intro fuel rest _ hlen hrest
    match fuel with
    | f + 1 =>
      cases ps with
      | nil =>
        have hne : rest.take 2 ≠ ([44, 32] : List Byte) := by
          cases rest with
          | nil => simp
          | cons b r =>
            intro hcon
            simp only [List.take_succ_cons, List.cons.injEq] at hcon
            exact hrest b rfl (by rw [hcon.1]; rfl)
        simp only [jsonItems, parseItems, parseProof_jsonProof]
        rw [if_neg hne]
      | cons q qs =>
        simp only [jsonItems, List.append_assoc, List.cons_append]
        simp only [parseItems, parseProof_jsonProof]
        rw [if_pos (by simp [List.take])]
        simp only [List.drop_succ_cons, List.drop_zero, List.nil_append]
        rw [ih f rest (by simp) (by simp at hlen ⊢; omega) hrest]

/-! ### Round-trip lemmas: base64 -/

theorem decChar_encChar_fin :
    ∀ s : Fin 64, decChar (encChar s.val) = some s.val ∧ (encChar s.val).val ≠ 61 := by
  decide

theorem decChar_enc (s : Nat) (h : s < 64) : decChar (encChar s) = some s :=
  (decChar_encChar_fin ⟨s, h⟩).1

theorem encChar_ne61 (s : Nat) (h : s < 64) : (encChar s).val ≠ 61 :=
  (decChar_encChar_fin ⟨s, h⟩).2

theorem val61 : ((61 : Byte)).val = 61 := rfl

theorem b64_roundtrip : ∀ bs : List Byte, b64decode (b64encode bs) = some bs
  | [] => rfl
  | [a] => by
    have ha := a.isLt
    have h1 : a.val / 4 < 64 := by omega
    have h2 : a.val % 4 * 16 < 64 := by omega
    simp only [b64encode, b64decode]
    rw [decChar_enc _ h1, decChar_enc _ h2]
    simp [val61, byteOf, Fin.ext_iff]
    omega
  | [a, b] => by
    have ha := a.isLt
    have hb := b.isLt
    have h1 : a.val / 4 < 64 := by omega
    have h2 : a.val % 4 * 16 + b.val / 16 < 64 := by omega
    have h3 : b.val % 16 * 4 < 64 := by omega
    simp only [b64encode, b64decode]
    rw [decChar_enc _ h1, decChar_enc _ h2]
    simp [encChar_ne61 _ h3, decChar_enc _ h3, val61, byteOf, Fin.ext_iff]
    omega
  | a :: b :: c :: d :: rest => by
    have ha := a.isLt
    have hb := b.isLt
    have hc := c.isLt
    have h1 : a.val / 4 < 64 := by omega
    have h2 : a.val % 4 * 16 + b.val / 16 < 64 := by omega
    have h3 : b.val % 16 * 4 + c.val / 64 < 64 := by omega
    have h4 : c.val % 64 < 64 := by omega
    have ih := b64_roundtrip (d :: rest)
    simp only [b64encode, b64decode]
    rw [decChar_enc _ h1, decChar_enc _ h2]
    simp [encChar_ne61 _ h3, decChar_enc _ h3, encChar_ne61 _ h4, decChar_enc _ h4,
      ih, byteOf, Fin.ext_iff]
    omega
  | [a, b, c] => by
    have ha := a.isLt
    have hb := b.isLt
    have hc := c.isLt
    have h1 : a.val / 4 < 64 := by omega
    have h2 : a.val % 4 * 16 + b.val / 16 < 64 := by omega
    have h3 : b.val % 16 * 4 + c.val / 64 < 64 := by omega
    have h4 : c.val % 64 < 64 := by omega
    simp only [b64encode, b64decode]
    rw [decChar_enc _ h1, decChar_enc _ h2]
    simp [encChar_ne61 _ h3, decChar_enc _ h3, encChar_ne61 _ h4, decChar_enc _ h4,
      byteOf, Fin.ext_iff]
    omega

theorem jsonProof_length_pos (p : WireProof) : 0 < (jsonProof p).length := by
  simp [jsonProof, lit1]

theorem jsonItems_length_ge :
    ∀ ps : List WireProof, ps.length ≤ (jsonItems jsonProof ps).length := by
  intro ps
  induction ps with
  | nil => simp [jsonItems]
  | cons p ps ih =>
    cases ps with
    | nil =>
      have := jsonProof_length_pos p
      simp only [jsonItems, List.length_singleton]
      omega
    | cons q qs =>
      have := jsonProof_length_pos p
      simp only [jsonItems, List.length_append, List.length_cons] at ih ⊢
      omega

/-- C7: serialization round trip.  `serialize_proofs` produces the
URL-safe base64 of the JSON array of proof dicts — omitting the
`secret` field exactly when `hide_secrets` is set (`jsonProofNoSecret`
versus `jsonProof` in its definition) — and with `hide_secrets = false`
deserialization recovers exactly the original proof list. -/
theorem serialize_deserialize_roundtrip (proofs : List WireProof) :
    deserialize (serialize_proofs proofs false) = some proofs := by
  simp only [serialize_proofs, Bool.false_eq_true, if_false, deserialize,
    b64_roundtrip, List.append_assoc]
  cases proofs with
  | nil =>
    simp [jsonItems, expectLit]
  | cons p ps =>
    have hne : jsonItems jsonProof (p :: ps) ++ [93] ≠ ([93] : List Byte) := by
      intro hcon
      have hlen := congrArg List.length hcon
      have hge := jsonItems_length_ge (p :: ps)
      simp only [List.length_append, List.length_singleton, List.length_cons] at hlen hge
      omega
    have hfuel : (p :: ps).length
        ≤ (jsonItems jsonProof (p :: ps) ++ [93]).length := by
      have hge := jsonItems_length_ge (p :: ps)
      simp only [List.length_append, List.length_singleton]
      omega
    have hrest : ∀ b : Byte, ([93] : List Byte).head? = some b → b.val ≠ 44 := by
      intro b hb
      simp only [List.head?_cons, Option.some.injEq] at hb
      subst hb
      decide
    have hpi := parseItems_jsonItems (p :: ps)
      ((jsonItems jsonProof (p :: ps) ++ [93]).length) [93] (by simp) hfuel hrest
    simp only [expectLit_append, if_neg hne, hpi]
    simp

end Cashu
